import Mathlib

/-!
Verification of the process core of skyline (KProcess), a shallow embedding
of src/app/src/main/cpp/skyline/kernel/types/KProcess.h.

Modelling conventions:
- handle_t, u64, u8, pid_t are modelled as Nat (handle_t's concrete width is
  declared outside this repository's sources; the handle counter is modelled
  as an unbounded Nat).
- std::unordered_map is modelled as an association list with
  first-match-wins lookup; map assignment is cons (which shadows, matching
  overwrite semantics), erase is key filtering.
- std::shared_ptr of a kernel object is modelled as the object value itself:
  the claims under study only concern the table bookkeeping, type tags and
  identity, never aliasing.
- Method bodies that live in the (absent) KProcess.cpp are modelled from the
  spec; each such definition carries a doc comment starting with
  Modelled from the spec.
-/

namespace KProc

/-- The kind tag of a kernel object, from the KType dispatch in
KProcess::GetHandle (KProcess.h lines 232-248). -/
inductive KType where
  | KThread
  | KProcess
  | KSharedMemory
  | KTransferMemory
  | KPrivateMemory
  | KSession
  | KEvent
deriving DecidableEq, Repr

/-- A polymorphic kernel object: its kind tag (KObject::objectType, consulted
by GetHandle) plus an identity distinguishing the concrete object. -/
structure KObject where
  objectType : KType
  objId : Nat
deriving DecidableEq, Repr

/-- The error classes GetHandle can surface (KProcess.h lines 249-257):
the out_of_range catch rethrows an invalid-handle exception, the tag check
throws a type-mismatch exception. -/
inductive KError where
  | InvalidHandle
  | TypeMismatch
deriving DecidableEq, Repr

/-- The handle-table portion of KProcess state: the next-handle counter
handleIndex (KProcess.h line 99) and the handles map (line 102). -/
structure HandleTable where
  handleIndex : Nat
  handles : List (Nat × KObject)
deriving DecidableEq, Repr

/-- A fresh table whose counter is seeded at the base value
(handleIndex = constant::BaseHandleIndex; the constant's numeric value is
declared outside this repository's sources, so the base is a parameter). -/
def initTable (base : Nat) : HandleTable :=
  { handleIndex := base, handles := [] }

/-- KProcess::NewHandle (KProcess.h lines 202-211): constructs the object,
stores it under handleIndex, returns the pair and post-increments the
counter. The returned Nat is the handle (HandleOut::handle). -/
def NewHandle (st : HandleTable) (obj : KObject) : Nat × HandleTable :=
  (st.handleIndex,
   { handleIndex := st.handleIndex + 1,
     handles := (st.handleIndex, obj) :: st.handles })

/-- KProcess::InsertItem (KProcess.h lines 218-222): stores an
already-constructed object under handleIndex and post-increments. -/
def InsertItem (st : HandleTable) (obj : KObject) : Nat × HandleTable :=
  (st.handleIndex,
   { handleIndex := st.handleIndex + 1,
     handles := (st.handleIndex, obj) :: st.handles })

/-- KProcess::DeleteHandle (KProcess.h lines 271-273): handles.erase(handle),
which removes the entry for that key if present and does nothing otherwise. -/
def DeleteHandle (st : HandleTable) (h : Nat) : HandleTable :=
  { st with handles := st.handles.filter (fun p => p.fst != h) }

/-- Lookup in the handles map: handles.at(handle), as an Option
(none models the std::out_of_range throw). -/
def lookupHandle (st : HandleTable) (h : Nat) : Option KObject :=
  (st.handles.find? (fun p => p.fst == h)).map Prod.snd

/-- KProcess::GetHandle (KProcess.h lines 230-258): the template parameter
objectClass is mapped to its KType tag by the if-constexpr chain; the kind
argument k here is that tag. An absent handle surfaces InvalidHandle, a
present handle with a different stored tag surfaces TypeMismatch, and a
matching tag returns the stored object (the static_pointer_cast). -/
def GetHandle (st : HandleTable) (k : KType) (h : Nat) : Except KError KObject :=
  match lookupHandle st h with
  | none => Except.error KError.InvalidHandle
  | some item =>
      if item.objectType = k then Except.ok item
      else Except.error KError.TypeMismatch

/-- One call against the handle table, for reasoning about call sequences. -/
inductive TableOp where
  | newHandle (obj : KObject)
  | insertItem (obj : KObject)
  | deleteHandle (h : Nat)
deriving DecidableEq, Repr

/-- Executes one table operation, returning the new state and the handle
value the call returned (DeleteHandle returns nothing). -/
def runOp (st : HandleTable) : TableOp → HandleTable × Option Nat
  | TableOp.newHandle obj =>
      let r := NewHandle st obj
      (r.2, some r.1)
  | TableOp.insertItem obj =>
      let r := InsertItem st obj
      (r.2, some r.1)
  | TableOp.deleteHandle h => (DeleteHandle st h, none)

/-- Executes a sequence of table operations, collecting every returned
handle value in call order. -/
def runOps (st : HandleTable) : List TableOp → HandleTable × List Nat
  | [] => (st, [])
  | op :: ops =>
      let r := runOp st op
      let rest := runOps r.1 ops
      (rest.1, r.2.toList ++ rest.2)

/-- The number of handle-returning calls (NewHandle or InsertItem) in a
sequence. -/
def numAllocs : List TableOp → Nat
  | [] => 0
  | TableOp.newHandle _ :: ops => numAllocs ops + 1
  | TableOp.insertItem _ :: ops => numAllocs ops + 1
  | TableOp.deleteHandle _ :: ops => numAllocs ops

theorem runOp_handleIndex (st : HandleTable) (op : TableOp) :
    (runOp st op).1.handleIndex =
      st.handleIndex + ((runOp st op).2.toList.length) := by
  cases op <;> simp [runOp, NewHandle, InsertItem, DeleteHandle]

theorem runOps_returns (st : HandleTable) (ops : List TableOp) :
    (runOps st ops).2 = List.range' st.handleIndex (numAllocs ops) ∧
      (runOps st ops).1.handleIndex = st.handleIndex + numAllocs ops := by
  induction ops generalizing st with
  | nil => simp [runOps, numAllocs]
  | cons op ops ih =>
      cases op with
      | newHandle obj =>
          have h := ih (runOp st (TableOp.newHandle obj)).1
          simp [runOps, runOp, NewHandle, numAllocs] at h ⊢
          refine ⟨?_, by omega⟩
          rw [h.1]
          rw [List.range'_succ]
      | insertItem obj =>
          have h := ih (runOp st (TableOp.insertItem obj)).1
          simp [runOps, runOp, InsertItem, numAllocs] at h ⊢
          refine ⟨?_, by omega⟩
          rw [h.1]
          rw [List.range'_succ]
      | deleteHandle hdl =>
          have h := ih (runOp st (TableOp.deleteHandle hdl)).1
          simp [runOps, runOp, DeleteHandle, numAllocs] at h ⊢
          exact h

/-- C1: every sequence of NewHandle/InsertItem/DeleteHandle calls started
from a table seeded at the base value returns exactly the consecutive
handles base, base+1, ..., so the returned handle values are strictly
increasing, start at the base, and are never repeated, deletions
notwithstanding. -/
theorem newHandle_strictly_increasing (base : Nat) (ops : List TableOp) :
    (runOps (initTable base) ops).2 = List.range' base (numAllocs ops) ∧
      List.Pairwise (fun a b => a < b) (runOps (initTable base) ops).2 ∧
      ((runOps (initTable base) ops).2).Nodup := by
  have h := runOps_returns (initTable base) ops
  have hret : (runOps (initTable base) ops).2 = List.range' base (numAllocs ops) := by
    simpa [initTable] using h.1
  refine ⟨hret, ?_, ?_⟩
  · rw [hret]
    have := List.pairwise_lt_range' base (numAllocs ops) 1
    simpa using this
  · rw [hret]
    exact List.nodup_range' base (numAllocs ops)

/-- Table well-formedness: the counter is at least the base, and every
stored key lies in the interval from the base (inclusive) up to the
counter (exclusive). A freshly seeded table has it, and every table
operation preserves it, because keys are only ever assigned from the
post-incremented counter. -/
def TableInv (base : Nat) (st : HandleTable) : Prop :=
  base ≤ st.handleIndex ∧
    ∀ p ∈ st.handles, base ≤ p.fst ∧ p.fst < st.handleIndex

/-- Whether a sequence of operations contains a DeleteHandle for a given
handle value. -/
def deletesHandle (h : Nat) (ops : List TableOp) : Bool :=
  ops.any (fun op =>
    match op with
    | TableOp.deleteHandle h2 => h2 == h
    | _ => false)

theorem tableInv_init (base : Nat) : TableInv base (initTable base) := by
  constructor
  · exact Nat.le_refl base
  · intro p hp
    simp [initTable] at hp

theorem tableInv_runOp (base : Nat) (st : HandleTable) (op : TableOp)
    (hinv : TableInv base st) : TableInv base (runOp st op).1 := by
  obtain ⟨hbase, hkeys⟩ := hinv
  cases op with
  | newHandle obj =>
      refine ⟨by simp [runOp, NewHandle]; omega, ?_⟩
      intro p hp
      simp [runOp, NewHandle] at hp ⊢
      rcases hp with hp | hp
      · subst hp; omega
      · have := hkeys p hp; omega
  | insertItem obj =>
      refine ⟨by simp [runOp, InsertItem]; omega, ?_⟩
      intro p hp
      simp [runOp, InsertItem] at hp ⊢
      rcases hp with hp | hp
      · subst hp; omega
      · have := hkeys p hp; omega
  | deleteHandle h =>
      refine ⟨by simpa [runOp, DeleteHandle] using hbase, ?_⟩
      intro p hp
      simp [runOp, DeleteHandle] at hp ⊢
      exact hkeys p hp.1

theorem tableInv_runOps (base : Nat) (st : HandleTable) (ops : List TableOp)
    (hinv : TableInv base st) : TableInv base (runOps st ops).1 := by
  induction ops generalizing st with
  | nil => simpa [runOps] using hinv
  | cons op ops ih =>
      simpa [runOps] using ih (runOp st op).1 (tableInv_runOp base st op hinv)

theorem handleIndex_mono_runOp (st : HandleTable) (op : TableOp) :
    st.handleIndex ≤ (runOp st op).1.handleIndex := by
  cases op <;> simp [runOp, NewHandle, InsertItem, DeleteHandle]

theorem handleIndex_mono_runOps (st : HandleTable) (ops : List TableOp) :
    st.handleIndex ≤ (runOps st ops).1.handleIndex := by
  induction ops generalizing st with
  | nil => simp [runOps]
  | cons op ops ih =>
      have h1 := handleIndex_mono_runOp st op
      have h2 := ih (runOp st op).1
      have h3 : (runOps st (op :: ops)).1 = (runOps (runOp st op).1 ops).1 := by
        simp [runOps]
      rw [h3]
      omega

theorem find?_filter_ne_key (l : List (Nat × KObject)) (h h0 : Nat)
    (hne : h ≠ h0) :
    (l.filter (fun p => p.fst != h0)).find? (fun p => p.fst == h) =
      l.find? (fun p => p.fst == h) := by
  rw [List.find?_filter]
  congr 1
  funext p
  by_cases hp : p.fst = h
  · simp [hp]
    omega
  · simp [hp]

theorem find?_filter_self_key (l : List (Nat × KObject)) (h : Nat) :
    (l.filter (fun p => p.fst != h)).find? (fun p => p.fst == h) = none := by
  rw [List.find?_eq_none]
  intro p hp
  have := List.of_mem_filter hp
  simp at this ⊢
  exact this

theorem lookup_DeleteHandle (st : HandleTable) (h h2 : Nat) :
    lookupHandle (DeleteHandle st h) h2 =
      if h2 = h then none else lookupHandle st h2 := by
  by_cases hc : h2 = h
  · subst hc
    simp [lookupHandle, DeleteHandle, find?_filter_self_key]
  · simp [lookupHandle, DeleteHandle, hc, find?_filter_ne_key st.handles h2 h hc]

theorem lookup_InsertItem (st : HandleTable) (obj : KObject) (h2 : Nat) :
    lookupHandle (InsertItem st obj).2 h2 =
      if h2 = st.handleIndex then some obj else lookupHandle st h2 := by
  by_cases hc : h2 = st.handleIndex
  · subst hc
    simp [lookupHandle, InsertItem, List.find?]
  · have : (st.handleIndex == h2) = false := by simp; omega
    simp [lookupHandle, InsertItem, List.find?, this, hc]

theorem lookup_NewHandle (st : HandleTable) (obj : KObject) (h2 : Nat) :
    lookupHandle (NewHandle st obj).2 h2 =
      if h2 = st.handleIndex then some obj else lookupHandle st h2 := by
  by_cases hc : h2 = st.handleIndex
  · subst hc
    simp [lookupHandle, NewHandle, List.find?]
  · have : (st.handleIndex == h2) = false := by simp; omega
    simp [lookupHandle, NewHandle, List.find?, this, hc]

theorem lookup_preserved (st : HandleTable) (ops : List TableOp) (h : Nat)
    (hh : h < st.handleIndex) (hnd : deletesHandle h ops = false) :
    lookupHandle (runOps st ops).1 h = lookupHandle st h := by
  induction ops generalizing st with
  | nil => simp [runOps]
  | cons op ops ih =>
      have hnd2 : deletesHandle h ops = false := by
        simp [deletesHandle] at hnd ⊢
        intro x hx
        exact hnd.2 x hx
      have hh2 : h < (runOp st op).1.handleIndex :=
        Nat.lt_of_lt_of_le hh (handleIndex_mono_runOp st op)
      have hstep : lookupHandle (runOp st op).1 h = lookupHandle st h := by
        cases op with
        | newHandle obj =>
            rw [show (runOp st (TableOp.newHandle obj)).1 = (NewHandle st obj).2 from rfl]
            rw [lookup_NewHandle]
            have : ¬ h = st.handleIndex := by omega
            simp [this]
        | insertItem obj =>
            rw [show (runOp st (TableOp.insertItem obj)).1 = (InsertItem st obj).2 from rfl]
            rw [lookup_InsertItem]
            have : ¬ h = st.handleIndex := by omega
            simp [this]
        | deleteHandle h0 =>
            have hne : h ≠ h0 := by
              simp [deletesHandle] at hnd
              have := hnd.1
              omega
            rw [show (runOp st (TableOp.deleteHandle h0)).1 = DeleteHandle st h0 from rfl]
            rw [lookup_DeleteHandle]
            simp [hne]
      calc lookupHandle (runOps st (op :: ops)).1 h
          = lookupHandle (runOps (runOp st op).1 ops).1 h := by simp [runOps]
        _ = lookupHandle (runOp st op).1 h := ih (runOp st op).1 hh2 hnd2
        _ = lookupHandle st h := hstep

theorem lookup_none_preserved (st : HandleTable) (ops : List TableOp) (h : Nat)
    (hh : h < st.handleIndex) (habs : lookupHandle st h = none) :
    lookupHandle (runOps st ops).1 h = none := by
  induction ops generalizing st with
  | nil => simpa [runOps] using habs
  | cons op ops ih =>
      have hh2 : h < (runOp st op).1.handleIndex :=
        Nat.lt_of_lt_of_le hh (handleIndex_mono_runOp st op)
      have hstep : lookupHandle (runOp st op).1 h = none := by
        cases op with
        | newHandle obj =>
            rw [show (runOp st (TableOp.newHandle obj)).1 = (NewHandle st obj).2 from rfl]
            rw [lookup_NewHandle]
            have : ¬ h = st.handleIndex := by omega
            simp [this, habs]
        | insertItem obj =>
            rw [show (runOp st (TableOp.insertItem obj)).1 = (InsertItem st obj).2 from rfl]
            rw [lookup_InsertItem]
            have : ¬ h = st.handleIndex := by omega
            simp [this, habs]
        | deleteHandle h0 =>
            rw [show (runOp st (TableOp.deleteHandle h0)).1 = DeleteHandle st h0 from rfl]
            rw [lookup_DeleteHandle]
            by_cases hc : h = h0 <;> simp [hc, habs]
      have := ih (runOp st op).1 hh2 hstep
      simpa [runOps] using this

theorem lookup_none_of_out_of_range (base : Nat) (st : HandleTable) (h2 : Nat)
    (hinv : TableInv base st)
    (hout : st.handleIndex ≤ h2 ∨ h2 < base) :
    lookupHandle st h2 = none := by
  have : st.handles.find? (fun p => p.fst == h2) = none := by
    rw [List.find?_eq_none]
    intro p hp
    have := hinv.2 p hp
    simp
    omega
  simp [lookupHandle, this]

/-- The table state after running a prefix of operations from a freshly
seeded table. -/
def stAfterPre (base : Nat) (pre : List TableOp) : HandleTable :=
  (runOps (initTable base) pre).1

/-- The handle value the InsertItem call under study returns. -/
def insHandle (base : Nat) (pre : List TableOp) : Nat :=
  (stAfterPre base pre).handleIndex

/-- The table state right after that InsertItem call. -/
def stAfterIns (base : Nat) (pre : List TableOp) (obj : KObject) : HandleTable :=
  (InsertItem (stAfterPre base pre) obj).2

/-- The table state after further operations following the insertion. -/
def stAfterMid (base : Nat) (pre : List TableOp) (obj : KObject)
    (mid : List TableOp) : HandleTable :=
  (runOps (stAfterIns base pre obj) mid).1

/-- The table state after deleting the studied handle and running yet more
operations. -/
def stAfterPost (base : Nat) (pre : List TableOp) (obj : KObject)
    (mid post : List TableOp) : HandleTable :=
  (runOps (DeleteHandle (stAfterMid base pre obj mid) (insHandle base pre)) post).1

/-- C2: for a handle h returned by InsertItem for an object of kind K and
not deleted since, GetHandle typed K returns exactly that object;
requested with a kind other than K it fails with TypeMismatch; after
DeleteHandle (and any further operations) it fails with InvalidHandle; and
any handle value that was never assigned (at or above the counter, or below
the base) fails with InvalidHandle. The stored object is never
reinterpreted under the wrong kind: the only success case is the matching
tag. -/
theorem GetHandle_spec (base : Nat) (pre mid post : List TableOp)
    (obj : KObject) (k : KType)
    (hmid : deletesHandle (insHandle base pre) mid = false) :
    GetHandle (stAfterMid base pre obj mid) obj.objectType (insHandle base pre) =
      Except.ok obj ∧
    (k ≠ obj.objectType →
      GetHandle (stAfterMid base pre obj mid) k (insHandle base pre) =
        Except.error KError.TypeMismatch) ∧
    GetHandle (stAfterPost base pre obj mid post) k (insHandle base pre) =
      Except.error KError.InvalidHandle ∧
    (∀ h2, (stAfterPost base pre obj mid post).handleIndex ≤ h2 ∨ h2 < base →
      GetHandle (stAfterPost base pre obj mid post) k h2 =
        Except.error KError.InvalidHandle) := by
  have hinv1 : TableInv base (stAfterPre base pre) :=
    tableInv_runOps base (initTable base) pre (tableInv_init base)
  have hIdxIns : (stAfterIns base pre obj).handleIndex = insHandle base pre + 1 := by
    simp [stAfterIns, InsertItem, insHandle]
  have hhlt : insHandle base pre < (stAfterIns base pre obj).handleIndex := by
    omega
  have hlookIns : lookupHandle (stAfterIns base pre obj) (insHandle base pre) =
      some obj := by
    rw [show stAfterIns base pre obj = (InsertItem (stAfterPre base pre) obj).2 from rfl]
    rw [lookup_InsertItem]
    simp [insHandle]
  have hlookMid : lookupHandle (stAfterMid base pre obj mid) (insHandle base pre) =
      some obj := by
    rw [show stAfterMid base pre obj mid = (runOps (stAfterIns base pre obj) mid).1 from rfl]
    rw [lookup_preserved (stAfterIns base pre obj) mid (insHandle base pre) hhlt hmid]
    exact hlookIns
  have hIdxMid : insHandle base pre < (stAfterMid base pre obj mid).handleIndex := by
    have := handleIndex_mono_runOps (stAfterIns base pre obj) mid
    rw [show stAfterMid base pre obj mid = (runOps (stAfterIns base pre obj) mid).1 from rfl]
    omega
  have hlookDel : lookupHandle
      (DeleteHandle (stAfterMid base pre obj mid) (insHandle base pre))
      (insHandle base pre) = none := by
    rw [lookup_DeleteHandle]
    simp
  have hIdxDel : insHandle base pre <
      (DeleteHandle (stAfterMid base pre obj mid) (insHandle base pre)).handleIndex := by
    simpa [DeleteHandle] using hIdxMid
  have hlookPost : lookupHandle (stAfterPost base pre obj mid post)
      (insHandle base pre) = none := by
    rw [show stAfterPost base pre obj mid post =
      (runOps (DeleteHandle (stAfterMid base pre obj mid) (insHandle base pre)) post).1 from rfl]
    exact lookup_none_preserved _ post _ hIdxDel hlookDel
  have hinvIns : TableInv base (stAfterIns base pre obj) :=
    tableInv_runOp base (stAfterPre base pre) (TableOp.insertItem obj) hinv1
  have hinvMid : TableInv base (stAfterMid base pre obj mid) :=
    tableInv_runOps base (stAfterIns base pre obj) mid hinvIns
  have hinvDel : TableInv base
      (DeleteHandle (stAfterMid base pre obj mid) (insHandle base pre)) :=
    tableInv_runOp base (stAfterMid base pre obj mid)
      (TableOp.deleteHandle (insHandle base pre)) hinvMid
  have hinvPost : TableInv base (stAfterPost base pre obj mid post) :=
    tableInv_runOps base _ post hinvDel
  refine ⟨?_, ?_, ?_, ?_⟩
  · simp [GetHandle, hlookMid]
  · intro hk
    have : ¬ obj.objectType = k := fun hc => hk hc.symm
    simp [GetHandle, hlookMid, this]
  · simp [GetHandle, hlookPost]
  · intro h2 hout
    have := lookup_none_of_out_of_range base (stAfterPost base pre obj mid post)
      h2 hinvPost hout
    simp [GetHandle, this]

/-- A sample kernel object used by the concrete witnesses. -/
def exObj : KObject := { objectType := KType.KThread, objId := 7 }

theorem GetHandle_spec_witness :
    GetHandle (stAfterMid 3 [] exObj [TableOp.newHandle ⟨KType.KEvent, 1⟩])
        KType.KThread (insHandle 3 []) = Except.ok exObj ∧
    GetHandle (stAfterMid 3 [] exObj [TableOp.newHandle ⟨KType.KEvent, 1⟩])
        KType.KSession (insHandle 3 []) = Except.error KError.TypeMismatch ∧
    GetHandle (stAfterPost 3 [] exObj [TableOp.newHandle ⟨KType.KEvent, 1⟩] [])
        KType.KSession (insHandle 3 []) = Except.error KError.InvalidHandle := by
  have T := GetHandle_spec 3 [] [TableOp.newHandle ⟨KType.KEvent, 1⟩] []
    exObj KType.KSession (by decide)
  exact ⟨by simpa [exObj] using T.1, T.2.1 (by decide), T.2.2.1⟩

/-- C10: deleting a handle that is not in the table is a no-op: the whole
table state is unchanged (so no error is raised and every other handle is
untouched), and every subsequent GetHandle behaves exactly as before. -/
theorem DeleteHandle_absent_noop (st : HandleTable) (h : Nat)
    (habs : lookupHandle st h = none) :
    DeleteHandle st h = st ∧
      ∀ k h2, GetHandle (DeleteHandle st h) k h2 = GetHandle st k h2 := by
  have hkeys : ∀ p ∈ st.handles, ¬ p.fst = h := by
    intro p hp
    simp [lookupHandle, List.find?_eq_none] at habs
    exact habs p.fst p.snd hp
  have hfe : st.handles.filter (fun p => p.fst != h) = st.handles := by
    rw [List.filter_eq_self]
    intro p hp
    simp
    exact hkeys p hp
  have h1 : DeleteHandle st h = st := by
    cases st with
    | mk hi hs =>
        simp [DeleteHandle]
        simpa using hfe
  exact ⟨h1, fun k h2 => by rw [h1]⟩

theorem DeleteHandle_absent_noop_witness :
    DeleteHandle { handleIndex := 5, handles := [(3, exObj)] } 4 =
      { handleIndex := 5, handles := [(3, exObj)] } ∧
    GetHandle (DeleteHandle { handleIndex := 5, handles := [(3, exObj)] } 4)
        KType.KThread 3 =
      GetHandle { handleIndex := 5, handles := [(3, exObj)] } KType.KThread 3 := by
  have T := DeleteHandle_absent_noop
    { handleIndex := 5, handles := [(3, exObj)] } 4 (by decide)
  exact ⟨T.1, T.2 KType.KThread 3⟩

/-- The guest process's backing memory store, addressed by guest-relative
offset; each cell holds one byte value. -/
def Memory : Type := Nat → Nat

/-- Modelled from the spec: the raw KProcess::WriteMemory primitive is only
declared in KProcess.h (line 186), its body lives in the absent
KProcess.cpp. Per spec section 4.3 it writes the source bytes into the
backing store at the given offset. -/
def WriteMemoryRaw (mem : Memory) (source : List Nat) (offset : Nat) : Memory :=
  fun a =>
    if offset ≤ a then source.getD (a - offset) (mem a) else mem a

/-- Modelled from the spec: the raw KProcess::ReadMemory primitive is only
declared in KProcess.h (line 178), its body lives in the absent
KProcess.cpp. Per spec section 4.3 it reads size bytes starting at the
given offset into the destination buffer. -/
def ReadMemoryRaw (mem : Memory) (offset size : Nat) : List Nat :=
  (List.range size).map (fun i => mem (offset + i))

/-- C4: writing a byte sequence at an offset and reading the same offset
and size back returns exactly the written bytes. -/
theorem write_read_roundtrip (mem : Memory) (source : List Nat) (offset : Nat) :
    ReadMemoryRaw (WriteMemoryRaw mem source offset) offset source.length =
      source := by
  apply List.ext_get
  · simp [ReadMemoryRaw]
  · intro i h1 h2
    simp [ReadMemoryRaw, WriteMemoryRaw]
    rw [List.getElem?_eq_getElem h2]
    rfl

/-- Copies the source bytes over the front of a destination buffer: the
effect of the raw read primitive on the caller-supplied buffer it fills. -/
def copyInto (dst src : List Nat) : List Nat :=
  src ++ dst.drop src.length

/-- KProcess::ReadMemory of a Type (KProcess.h lines 143-148): value
initialises a buffer of sizeof the Type zero bytes, has the raw primitive
fill it with that many bytes read at the address, and returns it. A value
of the Type is modelled by its byte list, size being sizeof the Type. -/
def ReadMemoryTyped (size : Nat) (mem : Memory) (address : Nat) : List Nat :=
  copyInto (List.replicate size 0) (ReadMemoryRaw mem address size)

/-- KProcess::WriteMemory of a Type (KProcess.h lines 156-170, both the
mutable and const overloads have this one body): hands the item's bytes to
the raw primitive at the address. -/
def WriteMemoryTyped (mem : Memory) (item : List Nat) (address : Nat) : Memory :=
  WriteMemoryRaw mem item address

/-- The spec's reading of the typed helper, for the refinement comparison:
the typed read returns exactly the value whose bytes the raw ReadMemory
produces at the address, nothing more. -/
def ReadMemoryTypedSpec (size : Nat) (mem : Memory) (address : Nat) : List Nat :=
  ReadMemoryRaw mem address size

/-- C5: the generic typed helpers coincide with the raw primitives applied
to sizeof the Type bytes: the typed read is exactly the raw read's bytes
(the zero initialised buffer is fully overwritten), and the typed write is
exactly the raw write of the item's bytes; the helpers add no behaviour. -/
theorem typed_helpers_refine_raw (size : Nat) (mem : Memory)
    (item : List Nat) (address : Nat) :
    ReadMemoryTyped size mem address = ReadMemoryTypedSpec size mem address ∧
      WriteMemoryTyped mem item address = WriteMemoryRaw mem item address := by
  constructor
  · have hlen : (ReadMemoryRaw mem address size).length = size := by
      simp [ReadMemoryRaw]
    simp [ReadMemoryTyped, ReadMemoryTypedSpec, copyInto, hlen]
  · rfl

/-- Number of TLS slots per page (constant::TlsSlots; KProcess.h line 21:
each page has 8 slots). -/
def TlsSlots : Nat := 8

/-- Size of one TLS slot in bytes (0x200, KProcess.h line 21). -/
def TlsSlotSize : Nat := 0x200

/-- Size of one TLS page (4096 bytes on ARMv8, KProcess.h line 20). -/
def PageSize : Nat := 0x1000

/-- KProcess::TlsPage (KProcess.h lines 25-53): the page's address, the
sequentially assigned slot index (the slots are assigned sequentially,
KProcess.h line 27) and the per-slot reservation flags (line 28). -/
structure TlsPage where
  address : Nat
  index : Nat
  slot : List Bool
deriving DecidableEq, Repr

/-- Modelled from the spec: TlsPage::Full is declared at KProcess.h line 52
with its body in the absent KProcess.cpp; a page is full when its
occupancy is exhausted, which under sequential assignment means all
TlsSlots slots have been handed out. -/
def TlsPage.Full (p : TlsPage) : Bool :=
  TlsSlots ≤ p.index

/-- Modelled from the spec: TlsPage::Get (declared at KProcess.h line 46)
returns the address of a slot; slots are TlsSlotSize bytes apart starting
at the page address. -/
def TlsPage.Get (p : TlsPage) (slotNo : Nat) : Nat :=
  p.address + slotNo * TlsSlotSize

/-- Modelled from the spec: TlsPage::ReserveSlot (declared at KProcess.h
line 39) reserves the next sequential slot, marks it occupied and returns
its address. -/
def TlsPage.ReserveSlot (p : TlsPage) : Nat × TlsPage :=
  (p.Get p.index,
   { p with index := p.index + 1, slot := p.slot.set p.index true })

/-- The TLS portion of process state: the allocated pages (tlsPages,
KProcess.h line 106) plus the address the next page allocation will be
placed at, modelling the process-memory allocator that backs new pages. -/
structure TlsState where
  tlsPages : List TlsPage
  nextPageAddress : Nat
deriving DecidableEq, Repr

/-- Modelled from the spec: KProcess::InitializeMemory (declared at
KProcess.h line 64) sets up the initial TLS page; its slot 0 is pre-marked
reserved for user-mode exception handling (KProcess.h line 22, spec
section 4.2), so the first page starts with index 1. -/
def initTls (base : Nat) : TlsState :=
  { tlsPages := [{ address := base, index := 1,
                   slot := true :: List.replicate (TlsSlots - 1) false }],
    nextPageAddress := base + PageSize }

/-- Scans the pages in order for one with free capacity and reserves
there, returning the slot address and the updated page list; none when
every page is full. -/
def reserveInPages : List TlsPage → Option (Nat × List TlsPage)
  | [] => none
  | p :: ps =>
      if p.Full then
        match reserveInPages ps with
        | none => none
        | some r => some (r.1, p :: r.2)
      else
        let r := p.ReserveSlot
        some (r.1, r.2 :: ps)

/-- Modelled from the spec: KProcess::GetTlsSlot (declared at KProcess.h
line 59) returns a slot from an existing TLS page with free capacity; only
when every page is full does it allocate a new page from process memory,
append it, and grant that page's first slot. -/
def GetTlsSlot (st : TlsState) : Nat × TlsState :=
  match reserveInPages st.tlsPages with
  | some r => (r.1, { st with tlsPages := r.2 })
  | none =>
      let np : TlsPage :=
        { address := st.nextPageAddress, index := 0,
          slot := List.replicate TlsSlots false }
      let r := np.ReserveSlot
      (r.1, { tlsPages := st.tlsPages ++ [r.2],
              nextPageAddress := st.nextPageAddress + PageSize })

/-- The TLS state after n successive reservations from the freshly
initialised state. -/
def iterTls (base : Nat) : Nat → TlsState
  | 0 => initTls base
  | n + 1 => (GetTlsSlot (iterTls base n)).2

/-- TLS well-formedness: the first page sits at the base address with its
slot 0 already handed out (index at least 1), every later page sits at or
beyond the next page boundary, and so will any page allocated later. -/
def TlsInv (base : Nat) (st : TlsState) : Prop :=
  (∃ p0 rest, st.tlsPages = p0 :: rest ∧ p0.address = base ∧ 1 ≤ p0.index ∧
      ∀ p ∈ rest, base + PageSize ≤ p.address) ∧
    base + PageSize ≤ st.nextPageAddress

theorem reserveInPages_map_address (ps : List TlsPage) (a : Nat)
    (ps2 : List TlsPage) (h : reserveInPages ps = some (a, ps2)) :
    ps2.map TlsPage.address = ps.map TlsPage.address := by
  induction ps generalizing a ps2 with
  | nil => simp [reserveInPages] at h
  | cons p ps ih =>
      by_cases hf : p.Full
      · simp [reserveInPages, hf] at h
        cases hr : reserveInPages ps with
        | none => rw [hr] at h; simp at h
        | some r =>
            rw [hr] at h
            simp at h
            have := ih r.1 r.2 (by rw [hr])
            simp [← h.2, this]
      · simp [reserveInPages, hf] at h
        simp [← h.2, TlsPage.ReserveSlot]

theorem reserveInPages_head (p0 : TlsPage) (rest : List TlsPage) (a : Nat)
    (ps2 : List TlsPage) (h : reserveInPages (p0 :: rest) = some (a, ps2)) :
    ∃ q0 rest2, ps2 = q0 :: rest2 ∧ q0.address = p0.address ∧
      p0.index ≤ q0.index ∧
      rest2.map TlsPage.address = rest.map TlsPage.address := by
  by_cases hf : p0.Full
  · simp [reserveInPages, hf] at h
    cases hr : reserveInPages rest with
    | none => rw [hr] at h; simp at h
    | some r =>
        rw [hr] at h
        simp at h
        refine ⟨p0, r.2, by simp [← h.2], rfl, Nat.le_refl _, ?_⟩
        exact reserveInPages_map_address rest r.1 r.2 (by rw [hr])
  · simp [reserveInPages, hf] at h
    refine ⟨p0.ReserveSlot.2, rest, by simp [← h.2], ?_, ?_, rfl⟩
    · simp [TlsPage.ReserveSlot]
    · simp [TlsPage.ReserveSlot]

theorem reserveInPages_source (ps : List TlsPage) (a : Nat)
    (ps2 : List TlsPage) (h : reserveInPages ps = some (a, ps2)) :
    ∃ p ∈ ps, p.Full = false ∧ a = p.Get p.index := by
  induction ps generalizing a ps2 with
  | nil => simp [reserveInPages] at h
  | cons p ps ih =>
      by_cases hf : p.Full
      · simp [reserveInPages, hf] at h
        cases hr : reserveInPages ps with
        | none => rw [hr] at h; simp at h
        | some r =>
            rw [hr] at h
            simp at h
            obtain ⟨q, hq, hqf, hqa⟩ := ih r.1 r.2 (by rw [hr])
            exact ⟨q, by simp [hq], hqf, by rw [← h.1]; exact hqa⟩
      · simp [reserveInPages, hf] at h
        exact ⟨p, by simp, by simpa using hf, by simp [← h.1, TlsPage.ReserveSlot]⟩

theorem reserveInPages_none_iff (ps : List TlsPage) :
    reserveInPages ps = none ↔ ∀ p ∈ ps, p.Full = true := by
  induction ps with
  | nil => simp [reserveInPages]
  | cons p ps ih =>
      constructor
      · intro h q hq
        by_cases hf : p.Full
        · rcases List.mem_cons.mp hq with hq | hq
          · rw [hq]; exact hf
          · refine ih.mp ?_ q hq
            cases hr : reserveInPages ps with
            | none => rfl
            | some r => simp [reserveInPages, hf, hr] at h
        · simp [reserveInPages, hf] at h
      · intro hall
        have hf : p.Full = true := hall p (by simp)
        have hnone : reserveInPages ps = none :=
          ih.mpr (fun q hq => hall q (by simp [hq]))
        simp [reserveInPages, hf, hnone]

theorem tlsInv_init (base : Nat) : TlsInv base (initTls base) := by
  refine ⟨⟨_, [], rfl, rfl, Nat.le_refl 1, by simp⟩, Nat.le_refl _⟩

theorem tlsInv_step (base : Nat) (st : TlsState) (hinv : TlsInv base st) :
    TlsInv base (GetTlsSlot st).2 := by
  obtain ⟨⟨p0, rest, hps, ha, hi, hrest⟩, hnext⟩ := hinv
  cases hr : reserveInPages st.tlsPages with
  | some r =>
      obtain ⟨q0, rest2, hps2, hqa, hqi, hmap⟩ :=
        reserveInPages_head p0 rest r.1 r.2 (by rw [← hps, hr])
      refine ⟨⟨q0, rest2, ?_, by rw [hqa, ha], by omega, ?_⟩, ?_⟩
      · simp [GetTlsSlot, hr, hps2]
      · intro q hq
        have : q.address ∈ rest.map TlsPage.address := by
          rw [← hmap]
          exact List.mem_map_of_mem TlsPage.address hq
        simp at this
        obtain ⟨p, hp, hpa⟩ := this
        rw [← hpa]
        exact hrest p hp
      · simpa [GetTlsSlot, hr] using hnext
  | none =>
      have hps2 : (GetTlsSlot st).2.tlsPages =
          st.tlsPages ++
            [(TlsPage.ReserveSlot
              { address := st.nextPageAddress, index := 0,
                slot := List.replicate TlsSlots false }).2] := by
        simp [GetTlsSlot, hr]
      refine ⟨⟨p0, rest ++ [(TlsPage.ReserveSlot
          { address := st.nextPageAddress, index := 0,
            slot := List.replicate TlsSlots false }).2], ?_, ha, hi, ?_⟩, ?_⟩
      · rw [hps2, hps]
        rfl
      · intro p hp
        rcases List.mem_append.mp hp with hp | hp
        · exact hrest p hp
        · simp at hp
          rw [hp]
          simpa [TlsPage.ReserveSlot] using hnext
      · simp [GetTlsSlot, hr]
        omega

theorem tlsInv_iter (base : Nat) (n : Nat) : TlsInv base (iterTls base n) := by
  induction n with
  | zero => exact tlsInv_init base
  | succ n ih => exact tlsInv_step base (iterTls base n) ih

/-- C3: from any state reachable by repeated reservations, the next
reservation never returns the address of slot 0 of the first page (it
returns a strictly larger address); whenever some existing page has a free
slot the reservation is served from an existing page (the page count is
unchanged and the address is a slot of a non-full existing page); and only
when every page is full is a new page allocated (the page count grows by
one). -/
theorem GetTlsSlot_spec (base n : Nat) :
    base < (GetTlsSlot (iterTls base n)).1 ∧
    ((∃ p ∈ (iterTls base n).tlsPages, p.Full = false) →
      (GetTlsSlot (iterTls base n)).2.tlsPages.length =
          (iterTls base n).tlsPages.length ∧
        ∃ p ∈ (iterTls base n).tlsPages, p.Full = false ∧ p.index < TlsSlots ∧
          (GetTlsSlot (iterTls base n)).1 = p.Get p.index) ∧
    ((∀ p ∈ (iterTls base n).tlsPages, p.Full = true) →
      (GetTlsSlot (iterTls base n)).2.tlsPages.length =
        (iterTls base n).tlsPages.length + 1) := by
  obtain ⟨⟨p0, rest, hps, ha, hi, hrest⟩, hnext⟩ := tlsInv_iter base n
  refine ⟨?_, ?_, ?_⟩
  · cases hr : reserveInPages (iterTls base n).tlsPages with
    | some r =>
        obtain ⟨p, hp, hpf, hpa⟩ :=
          reserveInPages_source (iterTls base n).tlsPages r.1 r.2 hr
        have hres : (GetTlsSlot (iterTls base n)).1 = r.1 := by
          simp [GetTlsSlot, hr]
        rw [hres, hpa]
        rw [hps] at hp
        rcases List.mem_cons.mp hp with hp | hp
        · rw [hp, TlsPage.Get, ha]
          have : 1 ≤ p0.index := hi
          have : TlsSlotSize ≤ p0.index * TlsSlotSize := by
            calc TlsSlotSize = 1 * TlsSlotSize := by omega
              _ ≤ p0.index * TlsSlotSize :=
                  Nat.mul_le_mul_right TlsSlotSize hi
          simp [TlsSlotSize] at this ⊢
          omega
        · have := hrest p hp
          rw [TlsPage.Get]
          simp [PageSize] at this
          omega
    | none =>
        have hres : (GetTlsSlot (iterTls base n)).1 =
            (iterTls base n).nextPageAddress := by
          simp [GetTlsSlot, hr, TlsPage.ReserveSlot, TlsPage.Get]
        rw [hres]
        simp [PageSize] at hnext
        omega
  · intro ⟨p, hp, hpf⟩
    cases hr : reserveInPages (iterTls base n).tlsPages with
    | some r =>
        constructor
        · have := reserveInPages_map_address (iterTls base n).tlsPages r.1 r.2 hr
          have hlen : r.2.length = (iterTls base n).tlsPages.length := by
            have h1 := congrArg List.length this
            simpa using h1
          simp [GetTlsSlot, hr, hlen]
        · obtain ⟨q, hq, hqf, hqa⟩ :=
            reserveInPages_source (iterTls base n).tlsPages r.1 r.2 hr
          refine ⟨q, hq, hqf, ?_, by simp [GetTlsSlot, hr, hqa]⟩
          simp [TlsPage.Full] at hqf
          exact hqf
    | none =>
        rw [reserveInPages_none_iff] at hr
        have := hr p hp
        rw [this] at hpf
        simp at hpf
  · intro hall
    have hr : reserveInPages (iterTls base n).tlsPages = none :=
      (reserveInPages_none_iff (iterTls base n).tlsPages).mpr hall
    simp [GetTlsSlot, hr]

theorem GetTlsSlot_spec_witness :
    0 < (GetTlsSlot (iterTls 0 0)).1 ∧
    (GetTlsSlot (iterTls 0 0)).2.tlsPages.length =
      (iterTls 0 0).tlsPages.length ∧
    (GetTlsSlot (iterTls 0 7)).2.tlsPages.length =
      (iterTls 0 7).tlsPages.length + 1 := by
  refine ⟨(GetTlsSlot_spec 0 0).1, ?_, ?_⟩
  · exact ((GetTlsSlot_spec 0 0).2.1 (by decide)).1
  · exact (GetTlsSlot_spec 0 7).2.2 (by decide)

/-- KProcess::WaitStatus (KProcess.h lines 91-97): the signalling flag of
the blocked thread, the thread's priority, and its pid. -/
structure WaitStatus where
  flag : Bool
  priority : Nat
  pid : Nat
deriving DecidableEq, Repr

/-- The synchronization portion of process state: the mutexes and
conditionals wait-queue maps (KProcess.h lines 104-105), and the guest
mutex words whose owner tags the subsystem maintains. -/
structure SyncState where
  mutexes : Nat → List WaitStatus
  conditionals : Nat → List WaitStatus
  mutexWords : Nat → Nat

/-- Modelled from the spec: selection of the waiter that wakes first from
a wait queue, as spec sections 4.4 and 8 describe it: the highest guest
thread priority wins and arrival order breaks ties. Returns that waiter
and the remaining queue; none on an empty queue. -/
def popHighest : List WaitStatus → Option (WaitStatus × List WaitStatus)
  | [] => none
  | w :: ws =>
      match popHighest ws with
      | none => some (w, [])
      | some (m, rest) =>
          if w.priority < m.priority then some (m, w :: rest)
          else some (w, ws)

theorem popHighest_eq_none_iff (l : List WaitStatus) :
    popHighest l = none ↔ l = [] := by
  cases l with
  | nil => simp [popHighest]
  | cons w ws =>
      simp only [popHighest]
      cases popHighest ws with
      | none => simp
      | some r =>
          by_cases hc : w.priority < r.1.priority <;> simp [hc]

theorem popHighest_decomp (l : List WaitStatus) (w : WaitStatus)
    (rest : List WaitStatus) (h : popHighest l = some (w, rest)) :
    ∃ l1 l2, l = l1 ++ w :: l2 ∧ rest = l1 ++ l2 ∧
      (∀ x ∈ l1, x.priority < w.priority) ∧
      (∀ x ∈ l2, x.priority ≤ w.priority) := by
  induction l generalizing w rest with
  | nil => simp [popHighest] at h
  | cons a ws ih =>
      simp only [popHighest] at h
      cases hp : popHighest ws with
      | none =>
          have hws : ws = [] := (popHighest_eq_none_iff ws).mp hp
          rw [hp] at h
          simp at h
          exact ⟨[], [], by simp [hws, h.1], by simp [h.2], by simp, by simp⟩
      | some r =>
          rw [hp] at h
          obtain ⟨l1, l2, hl, hr, hlt, hle⟩ := ih r.1 r.2 (by rw [hp])
          by_cases hc : a.priority < r.1.priority
          · simp [hc] at h
            refine ⟨a :: l1, l2, ?_, ?_, ?_, ?_⟩
            · simp [hl, ← h.1]
            · simp [← h.2, hr, ← h.1]
            · intro x hx
              rcases List.mem_cons.mp hx with hx | hx
              · rw [hx, ← h.1]; exact hc
              · rw [← h.1]; exact hlt x hx
            · intro x hx
              rw [← h.1]
              exact hle x hx
          · simp [hc] at h
            refine ⟨[], ws, by simp [h.1], by simp [h.2], by simp, ?_⟩
            intro x hx
            rw [hl] at hx
            rw [← h.1]
            rcases List.mem_append.mp hx with hx | hx
            · have := hlt x hx
              omega
            · rcases List.mem_cons.mp hx with hx | hx
              · rw [hx]; omega
              · have := hle x hx
                omega

theorem popHighest_length (l : List WaitStatus) (w : WaitStatus)
    (rest : List WaitStatus) (h : popHighest l = some (w, rest)) :
    l.length = rest.length + 1 := by
  obtain ⟨l1, l2, hl, hr, _, _⟩ := popHighest_decomp l w rest h
  simp [hl, hr]
  omega

theorem popHighest_max (l : List WaitStatus) (w : WaitStatus)
    (rest : List WaitStatus) (h : popHighest l = some (w, rest)) :
    ∀ x ∈ l, x.priority ≤ w.priority := by
  obtain ⟨l1, l2, hl, _, hlt, hle⟩ := popHighest_decomp l w rest h
  intro x hx
  rw [hl] at hx
  rcases List.mem_append.mp hx with hx | hx
  · have := hlt x hx; omega
  · rcases List.mem_cons.mp hx with hx | hx
    · rw [hx]
    · exact hle x hx

theorem popHighest_rest_sublist (l : List WaitStatus) (w : WaitStatus)
    (rest : List WaitStatus) (h : popHighest l = some (w, rest)) :
    rest.Sublist l := by
  obtain ⟨l1, l2, hl, hr, _, _⟩ := popHighest_decomp l w rest h
  rw [hl, hr]
  exact List.Sublist.append_left (List.sublist_cons_self w l2) l1

/-- Modelled from the spec: KProcess::MutexUnlock is declared at KProcess.h
line 288 with its body in the absent KProcess.cpp. Per spec section 4.4,
with waiters queued at the address it pops the highest-priority waiter
(arrival order breaking ties), sets its signalling flag (the released
waiter is the middle component), writes that waiter's thread into the
guest-visible owner tag of the mutex word, and returns true; with no
waiters it clears the word to the unlocked encoding 0 and returns
false. -/
def MutexUnlock (st : SyncState) (address : Nat) :
    Bool × Option WaitStatus × SyncState :=
  match popHighest (st.mutexes address) with
  | none =>
      (false, none,
       { st with
         mutexWords := fun a => if a = address then 0 else st.mutexWords a })
  | some (w, rest) =>
      (true, some { w with flag := true },
       { st with
         mutexes := fun a => if a = address then rest else st.mutexes a,
         mutexWords := fun a => if a = address then w.pid else st.mutexWords a })

/-- Modelled from the spec: KProcess::MutexLock is declared at KProcess.h
line 281 with its body in the absent KProcess.cpp. Per spec section 4.4,
when alwaysLock is false and the word at the address does not tag owner as
the current owner the call returns immediately without queueing anything;
otherwise the caller is appended to the address's wait queue as a fresh
wait status (flag clear) and suspends until the flag is set. The Bool
reports whether the caller was queued. -/
def MutexLock (st : SyncState) (address owner priority pid : Nat)
    (alwaysLock : Bool) : Bool × SyncState :=
  if alwaysLock = false ∧ st.mutexWords address ≠ owner then
    (false, st)
  else
    (true,
     { st with
       mutexes := fun a =>
         if a = address then
           st.mutexes a ++ [{ flag := false, priority := priority, pid := pid }]
         else st.mutexes a })

/-- The first queued waiter of the priority wake-order example: priority 5,
arrived first. -/
def wFirst5 : WaitStatus := { flag := false, priority := 5, pid := 1 }

/-- The second queued waiter of the wake-order example: priority 1. -/
def wOnly1 : WaitStatus := { flag := false, priority := 1, pid := 2 }

/-- The third queued waiter of the wake-order example: priority 5, arrived
after wFirst5. -/
def wSecond5 : WaitStatus := { flag := false, priority := 5, pid := 3 }

/-- A process state whose mutex queue at address 0 holds the waiters with
priorities 5, 1, 5 in arrival order. -/
def exMutexState : SyncState :=
  { mutexes := fun a => if a = 0 then [wFirst5, wOnly1, wSecond5] else [],
    conditionals := fun _ => [],
    mutexWords := fun _ => 0 }

/-- C6: with a non-empty wait queue at the address, MutexUnlock returns
true, releases (flag set) the queue's earliest highest-priority waiter,
removes exactly that waiter, and writes its thread into the owner tag of
the mutex word; with no waiters it returns false, releases nobody, and
clears the owner tag to the unlocked encoding. On the queued priorities
5, 1, 5 three successive unlocks release first the earlier 5, then the
later 5, then the 1. -/
theorem MutexUnlock_spec (st : SyncState) (address : Nat) :
    (st.mutexes address = [] →
      (MutexUnlock st address).1 = false ∧
        (MutexUnlock st address).2.1 = none ∧
        (MutexUnlock st address).2.2.mutexWords address = 0 ∧
        (MutexUnlock st address).2.2.mutexes = st.mutexes) ∧
    (st.mutexes address ≠ [] →
      ∃ w l1 l2,
        st.mutexes address = l1 ++ w :: l2 ∧
        (∀ x ∈ l1, x.priority < w.priority) ∧
        (∀ x ∈ l2, x.priority ≤ w.priority) ∧
        (MutexUnlock st address).1 = true ∧
        (MutexUnlock st address).2.1 = some { w with flag := true } ∧
        (MutexUnlock st address).2.2.mutexes address = l1 ++ l2 ∧
        (MutexUnlock st address).2.2.mutexWords address = w.pid) ∧
    ((MutexUnlock exMutexState 0).2.1 = some { wFirst5 with flag := true } ∧
      (MutexUnlock (MutexUnlock exMutexState 0).2.2 0).2.1 =
        some { wSecond5 with flag := true } ∧
      (MutexUnlock (MutexUnlock (MutexUnlock exMutexState 0).2.2 0).2.2 0).2.1 =
        some { wOnly1 with flag := true }) := by
  refine ⟨?_, ?_, ?_⟩
  · intro hq
    have hp : popHighest (st.mutexes address) = none :=
      (popHighest_eq_none_iff (st.mutexes address)).mpr hq
    simp [MutexUnlock, hp]
  · intro hq
    cases hp : popHighest (st.mutexes address) with
    | none =>
        exact absurd ((popHighest_eq_none_iff (st.mutexes address)).mp hp) hq
    | some r =>
        obtain ⟨l1, l2, hl, hr, hlt, hle⟩ :=
          popHighest_decomp (st.mutexes address) r.1 r.2 (by rw [hp])
        exact ⟨r.1, l1, l2, hl, hlt, hle,
          by simp [MutexUnlock, hp],
          by simp [MutexUnlock, hp],
          by simp [MutexUnlock, hp, ← hr],
          by simp [MutexUnlock, hp]⟩
  · refine ⟨?_, ?_, ?_⟩ <;> decide

theorem MutexUnlock_spec_witness :
    (MutexUnlock exMutexState 5).1 = false ∧
    (MutexUnlock exMutexState 0).1 = true ∧
    (MutexUnlock exMutexState 0).2.2.mutexWords 0 = 1 := by
  have T0 := (MutexUnlock_spec exMutexState 5).1 (by decide)
  have T1 := (MutexUnlock_spec exMutexState 0).2.1 (by decide)
  obtain ⟨w, l1, l2, hl, _, _, hret, hrel, _, hword⟩ := T1
  have hw : w = wFirst5 := by
    have := (MutexUnlock_spec exMutexState 0).2.2.1
    rw [hrel] at this
    have hflag : WaitStatus.mk true w.priority w.pid =
        WaitStatus.mk true wFirst5.priority wFirst5.pid := by
      simpa [wFirst5] using this
    have hl1 : w ∈ exMutexState.mutexes 0 := by
      rw [hl]; simp
    simp [exMutexState, wFirst5, wOnly1, wSecond5] at hl1
    simp [wFirst5] at hflag
    rcases hl1 with h | h | h <;>
      (cases w; simp_all [wFirst5, wOnly1, wSecond5])
  refine ⟨T0.1, hret, ?_⟩
  rw [hword, hw]
  rfl

/-- C7: with alwaysLock false and the mutex word at the address not
tagging owner as the current owner, MutexLock returns at once with the
whole state untouched and nothing queued; with alwaysLock true, or with
the tag matching owner, the caller is appended to the address's wait
queue as a fresh unsignalled wait-status entry (every other queue, the
words, and the condition-variable queues are untouched). -/
theorem MutexLock_spec (st : SyncState) (address owner priority pid : Nat)
    (alwaysLock : Bool) :
    ((alwaysLock = false ∧ st.mutexWords address ≠ owner) →
      MutexLock st address owner priority pid alwaysLock = (false, st)) ∧
    ((alwaysLock = true ∨ st.mutexWords address = owner) →
      (MutexLock st address owner priority pid alwaysLock).1 = true ∧
        (MutexLock st address owner priority pid alwaysLock).2.mutexes address =
          st.mutexes address ++
            [{ flag := false, priority := priority, pid := pid }] ∧
        (∀ a, a ≠ address →
          (MutexLock st address owner priority pid alwaysLock).2.mutexes a =
            st.mutexes a) ∧
        (MutexLock st address owner priority pid alwaysLock).2.mutexWords =
          st.mutexWords ∧
        (MutexLock st address owner priority pid alwaysLock).2.conditionals =
          st.conditionals) := by
  constructor
  · intro hc
    simp [MutexLock, hc]
  · intro hc
    have hnc : ¬ (alwaysLock = false ∧ st.mutexWords address ≠ owner) := by
      rcases hc with hc | hc
      · simp [hc]
      · simp [hc]
    refine ⟨by simp [MutexLock, hnc], by simp [MutexLock, hnc], ?_,
      by simp [MutexLock, hnc], by simp [MutexLock, hnc]⟩
    intro a ha
    simp [MutexLock, hnc, ha]

theorem MutexLock_spec_witness :
    MutexLock exMutexState 4 9 6 7 false = (false, exMutexState) ∧
    (MutexLock exMutexState 4 0 6 7 false).1 = true ∧
    (MutexLock exMutexState 4 0 6 7 false).2.mutexes 4 =
      [{ flag := false, priority := 6, pid := 7 }] := by
  have T0 := (MutexLock_spec exMutexState 4 9 6 7 false).1 (by decide)
  have T1 := (MutexLock_spec exMutexState 4 0 6 7 false).2 (Or.inr (by decide))
  refine ⟨T0, T1.1, ?_⟩
  rw [T1.2.1]
  decide

/-- Modelled from the spec: the queue transformation of
KProcess::ConditionalVariableSignal (declared at KProcess.h line 302, body
in the absent KProcess.cpp): wake up to amount waiters in priority order
with the mutex tie-break, removing each from the queue and setting its
flag; stop early on an empty queue. Returns the woken waiters in wake
order together with the remaining queue. -/
def signalQueue : Nat → List WaitStatus → List WaitStatus × List WaitStatus
  | 0, l => ([], l)
  | n + 1, l =>
      match popHighest l with
      | none => ([], l)
      | some (w, rest) =>
          let r := signalQueue n rest
          ({ w with flag := true } :: r.1, r.2)

theorem signalQueue_bounded (n : Nat) (l : List WaitStatus) (b : Nat)
    (hb : ∀ x ∈ l, x.priority ≤ b) :
    ∀ y ∈ (signalQueue n l).1, y.priority ≤ b := by
  induction n generalizing l with
  | zero => simp [signalQueue]
  | succ n ih =>
      cases hp : popHighest l with
      | none => simp [signalQueue, hp]
      | some r =>
          simp only [signalQueue, hp]
          intro y hy
          rcases List.mem_cons.mp hy with hy | hy
          · rw [hy]
            obtain ⟨l1, l2, hl, _, _, _⟩ := popHighest_decomp l r.1 r.2 (by rw [hp])
            exact hb r.1 (by rw [hl]; simp)
          · refine ih r.2 ?_ y hy
            intro x hx
            exact hb x
              ((popHighest_rest_sublist l r.1 r.2 (by rw [hp])).mem hx)

theorem signalQueue_count (n : Nat) (l : List WaitStatus) :
    (signalQueue n l).1.length = min n l.length := by
  induction n generalizing l with
  | zero => simp [signalQueue]
  | succ n ih =>
      cases hp : popHighest l with
      | none =>
          have hl : l = [] := (popHighest_eq_none_iff l).mp hp
          subst hl
          simp [signalQueue, popHighest]
      | some r =>
          have hlen := popHighest_length l r.1 r.2 (by rw [hp])
          simp only [signalQueue, hp]
          simp [ih r.2, hlen]
          omega

theorem signalQueue_rest_sublist (n : Nat) (l : List WaitStatus) :
    (signalQueue n l).2.Sublist l := by
  induction n generalizing l with
  | zero => simp [signalQueue]
  | succ n ih =>
      cases hp : popHighest l with
      | none => simp [signalQueue, hp]
      | some r =>
          simp only [signalQueue, hp]
          exact (ih r.2).trans (popHighest_rest_sublist l r.1 r.2 (by rw [hp]))

theorem signalQueue_rest_length (n : Nat) (l : List WaitStatus) :
    (signalQueue n l).2.length = l.length - (signalQueue n l).1.length := by
  induction n generalizing l with
  | zero => simp [signalQueue]
  | succ n ih =>
      cases hp : popHighest l with
      | none => simp [signalQueue, hp]
      | some r =>
          have hlen := popHighest_length l r.1 r.2 (by rw [hp])
          have hc := signalQueue_count n r.2
          have h2 := ih r.2
          simp only [signalQueue, hp]
          simp [h2, hlen]

theorem signalQueue_flags (n : Nat) (l : List WaitStatus) :
    ∀ w ∈ (signalQueue n l).1, w.flag = true := by
  induction n generalizing l with
  | zero => simp [signalQueue]
  | succ n ih =>
      cases hp : popHighest l with
      | none => simp [signalQueue, hp]
      | some r =>
          simp only [signalQueue, hp]
          intro w hw
          rcases List.mem_cons.mp hw with hw | hw
          · rw [hw]
          · exact ih r.2 w hw

theorem signalQueue_sorted (n : Nat) (l : List WaitStatus) :
    List.Pairwise (fun a b => b.priority ≤ a.priority) (signalQueue n l).1 := by
  induction n generalizing l with
  | zero => simp [signalQueue]
  | succ n ih =>
      cases hp : popHighest l with
      | none => simp [signalQueue, hp]
      | some r =>
          simp only [signalQueue, hp]
          refine List.Pairwise.cons ?_ (ih r.2)
          intro y hy
          refine signalQueue_bounded n r.2 r.1.priority ?_ y hy
          intro x hx
          exact popHighest_max l r.1 r.2 (by rw [hp]) x
            ((popHighest_rest_sublist l r.1 r.2 (by rw [hp])).mem hx)

theorem signalQueue_dominates (n : Nat) (l : List WaitStatus) :
    ∀ w ∈ (signalQueue n l).1, ∀ x ∈ (signalQueue n l).2,
      x.priority ≤ w.priority := by
  induction n generalizing l with
  | zero => simp [signalQueue]
  | succ n ih =>
      cases hp : popHighest l with
      | none => simp [signalQueue, hp]
      | some r =>
          simp only [signalQueue, hp]
          intro w hw x hx
          rcases List.mem_cons.mp hw with hw | hw
          · rw [hw]
            refine popHighest_max l r.1 r.2 (by rw [hp]) x ?_
            exact (popHighest_rest_sublist l r.1 r.2 (by rw [hp])).mem
              ((signalQueue_rest_sublist n r.2).mem hx)
          · exact ih r.2 w hw x hx

/-- Modelled from the spec: KProcess::ConditionalVariableSignal (declared
at KProcess.h line 302) applies the wake transformation to the queue for
the address; the other queues and the mutex state are untouched. Returns
the woken waiters. -/
def ConditionalVariableSignal (st : SyncState) (address amount : Nat) :
    List WaitStatus × SyncState :=
  let r := signalQueue amount (st.conditionals address)
  (r.1,
   { st with
     conditionals := fun a => if a = address then r.2 else st.conditionals a })

/-- The lowest-priority waiter of the condition-variable example:
priority 3. -/
def cvLow : WaitStatus := { flag := false, priority := 3, pid := 1 }

/-- The highest-priority waiter of the condition-variable example:
priority 7. -/
def cvHigh : WaitStatus := { flag := false, priority := 7, pid := 2 }

/-- The middle-priority waiter of the condition-variable example:
priority 5. -/
def cvMid : WaitStatus := { flag := false, priority := 5, pid := 3 }

/-- A process state whose condition-variable queue at address 0 holds the
three example waiters in arrival order low, high, mid. -/
def exCondState : SyncState :=
  { mutexes := fun _ => [],
    conditionals := fun a => if a = 0 then [cvLow, cvHigh, cvMid] else [],
    mutexWords := fun _ => 0 }

/-- C8: ConditionalVariableSignal wakes exactly min of amount and the
queue length waiters, all with their flags set, in non-increasing
priority order (arrival breaking ties), removing exactly the woken
waiters from the queue (the remainder is a subsequence of the original of
the complementary length, every remaining priority at most every woken
priority); other addresses and the mutex state are untouched. With three
waiters queued and amount 2, exactly the two highest-priority waiters
wake and exactly one waiter stays queued. -/
theorem ConditionalVariableSignal_spec (st : SyncState) (address amount : Nat) :
    ((ConditionalVariableSignal st address amount).1.length =
      min amount (st.conditionals address).length) ∧
    ((ConditionalVariableSignal st address amount).2.conditionals
        address).Sublist (st.conditionals address) ∧
    ((ConditionalVariableSignal st address amount).2.conditionals
        address).length =
      (st.conditionals address).length -
        (ConditionalVariableSignal st address amount).1.length ∧
    (∀ w ∈ (ConditionalVariableSignal st address amount).1, w.flag = true) ∧
    List.Pairwise (fun a b => b.priority ≤ a.priority)
      (ConditionalVariableSignal st address amount).1 ∧
    (∀ w ∈ (ConditionalVariableSignal st address amount).1,
      ∀ x ∈ (ConditionalVariableSignal st address amount).2.conditionals address,
        x.priority ≤ w.priority) ∧
    (∀ a, a ≠ address →
      (ConditionalVariableSignal st address amount).2.conditionals a =
        st.conditionals a) ∧
    (ConditionalVariableSignal st address amount).2.mutexes = st.mutexes ∧
    (ConditionalVariableSignal st address amount).2.mutexWords = st.mutexWords ∧
    ((ConditionalVariableSignal exCondState 0 2).1 =
        [{ cvHigh with flag := true }, { cvMid with flag := true }] ∧
      (ConditionalVariableSignal exCondState 0 2).2.conditionals 0 = [cvLow]) := by
  have h1 : (ConditionalVariableSignal st address amount).1 =
      (signalQueue amount (st.conditionals address)).1 := rfl
  have h2 : (ConditionalVariableSignal st address amount).2.conditionals address =
      (signalQueue amount (st.conditionals address)).2 := by
    simp [ConditionalVariableSignal]
  refine ⟨?_, ?_, ?_, ?_, ?_, ?_, ?_, rfl, rfl, by decide, by decide⟩
  · rw [h1]
    exact signalQueue_count amount (st.conditionals address)
  · rw [h2]
    exact signalQueue_rest_sublist amount (st.conditionals address)
  · rw [h1, h2]
    exact signalQueue_rest_length amount (st.conditionals address)
  · rw [h1]
    exact signalQueue_flags amount (st.conditionals address)
  · rw [h1]
    exact signalQueue_sorted amount (st.conditionals address)
  · rw [h1, h2]
    exact signalQueue_dominates amount (st.conditionals address)
  · intro a ha
    simp [ConditionalVariableSignal, ha]

theorem ConditionalVariableSignal_spec_witness :
    (ConditionalVariableSignal exCondState 0 2).1.length =
      min 2 (exCondState.conditionals 0).length ∧
    (ConditionalVariableSignal exCondState 0 2).2.conditionals 9 =
      exCondState.conditionals 9 := by
  have T := ConditionalVariableSignal_spec exCondState 0 2
  exact ⟨T.1, T.2.2.2.2.2.2.1 9 (by decide)⟩

/-- Modelled from the spec: KProcess::ConditionalVariableWait (declared at
KProcess.h line 295, body in the absent KProcess.cpp), viewed from the
waiting thread against the queue for its address. The signalled argument
is the oracle for whether a signal set the waiter's flag before the
deadline. Woken by a signal, the call returns true (the signaller already
removed the entry); on timeout it removes its own entry from the queue
and returns false. Either outcome is an ordinary Bool result, the
function is total: no fault is thrown. -/
def ConditionalVariableWait (queue : List WaitStatus) (w : WaitStatus)
    (signalled : Bool) : Bool × List WaitStatus :=
  if signalled then (true, queue)
  else (false, queue.erase w)

/-- C9: ConditionalVariableWait returns true exactly when the signal
arrived before the deadline, and false on timeout; on timeout the
waiter's own entry is gone from the queue (it is queued at most once: a
waiter is never re-queued), and both outcomes are plain Bool results of a
total function, never a thrown fault. -/
theorem ConditionalVariableWait_spec (queue : List WaitStatus) (w : WaitStatus)
    (hw : queue.count w ≤ 1) :
    (ConditionalVariableWait queue w true).1 = true ∧
    (ConditionalVariableWait queue w false).1 = false ∧
    w ∉ (ConditionalVariableWait queue w false).2 := by
  refine ⟨rfl, rfl, ?_⟩
  have herase : (ConditionalVariableWait queue w false).2 = queue.erase w := rfl
  rw [herase]
  intro hmem
  have hcount := List.count_erase_self w queue
  have hpos : 0 < (queue.erase w).count w := List.count_pos_iff.mpr hmem
  omega

theorem ConditionalVariableWait_spec_witness :
    (ConditionalVariableWait [cvLow, cvHigh] cvHigh true).1 = true ∧
    (ConditionalVariableWait [cvLow, cvHigh] cvHigh false).1 = false ∧
    cvHigh ∉ (ConditionalVariableWait [cvLow, cvHigh] cvHigh false).2 :=
  ConditionalVariableWait_spec [cvLow, cvHigh] cvHigh (by decide)

end KProc
